import Mathlib

/-!
# Verification of the colophon mod-management core

A shallow embedding, in Lean 4, of the manifest-resolution, name-disambiguation,
content-verified caching and in-place document-patching engine of the
`colophon` repository (Go).  Each definition is translated from one function of
the source; external collaborators (the HTTP transport, the XML library, the
filesystem) are modelled as explicit parameters, as the specification directs.
-/

namespace Colophon

/-! ## Data model (`internal/modlinks/modlinks.go`, types `Manifest`, `OSLinkSet`, `Link`)

Go's `nil` slice for `Dependencies` is distinct from an empty slice; we keep
that distinction with `Option (List String)`.  The `OSLinks *OSLinkSet` pointer
field becomes `Option OSLinkSet`. -/

structure Link where
  sha256 : String
  url : String
deriving DecidableEq, Repr

structure OSLinkSet where
  windows : Link
  mac : Link
  linux : Link
deriving DecidableEq, Repr

structure Manifest where
  name : String
  description : String
  version : String
  link : Link
  osLinks : Option OSLinkSet
  dependencies : Option (List String)
  repository : String
deriving DecidableEq, Repr

/-! ## Name resolution (`resolveModName`, main program)

The Go code matches each catalog name against the regular expression
`(?i)` + `regexp.QuoteMeta(requestedName)`: a case-insensitive substring test.
`strings.EqualFold` is case-insensitive string equality.  Both are modelled by
comparing the character-wise lowercasings. -/

def lowercase (s : String) : List Char := s.data.map Char.toLower

/-- Does `pat` occur at the head of `l`? -/
def leadsWith (pat l : List Char) : Bool :=
  match pat, l with
  | [], _ => true
  | _ :: _, [] => false
  | p :: ps, c :: cs => p = c && leadsWith ps cs

/-- Index of the first occurrence of `pat` inside `l`, if any. -/
def firstOccur (l pat : List Char) : Option Nat :=
  match l with
  | [] => if pat.isEmpty then some 0 else none
  | _ :: rest =>
    if leadsWith pat l then some 0 else (firstOccur rest pat).map (· + 1)

/-- Does `pat` occur anywhere inside `l`? -/
def containsSeq (l pat : List Char) : Bool := (firstOccur l pat).isSome

/-- `strings.EqualFold m requested`: equality ignoring case. -/
def eqFold (a b : String) : Bool := lowercase a == lowercase b

/-- `pattern.MatchString m` for the pattern `(?i)`+`QuoteMeta(requested)`:
`requested` occurs in `m` as a case-insensitive substring. -/
def containsCI (m requested : String) : Bool :=
  containsSeq (lowercase m) (lowercase requested)

instance {E A : Type} [DecidableEq E] [DecidableEq A] : DecidableEq (Except E A)
  | .ok a, .ok b => decidable_of_iff (a = b) (by simp)
  | .ok _, .error _ => .isFalse (by simp)
  | .error _, .ok _ => .isFalse (by simp)
  | .error e, .error f => decidable_of_iff (e = f) (by simp)

/-- The three failure modes of `resolveModName`: `unknownModError`,
`ambiguousModError` and `duplicateModError` of the source. -/
inductive ResolveError where
  | notFound (requestedName : String)
  | ambiguous (requestedName : String) (possibilities : List String)
  | duplicate (requestedName : String) (numMatches : Nat)
deriving DecidableEq, Repr

/-- `resolveModName` (main program): the three-tier escalating-specificity
resolution.  The Go `switch len(matches)` blocks become matches on the shape
of the filtered lists; counting exact matches with a loop becomes the length
of a filter. -/
def resolveModName (ms : List String) (requestedName : String) :
    Except ResolveError String :=
  let substrMatches := ms.filter (fun m => containsCI m requestedName)
  match substrMatches with
  | [m] => .ok m
  | [] => .error (.notFound requestedName)
  | _ :: _ :: _ =>
    let fullMatches := substrMatches.filter (fun m => eqFold m requestedName)
    match fullMatches with
    | [m] => .ok m
    | [] => .error (.ambiguous requestedName substrMatches)
    | _ :: _ :: _ =>
      let numExactMatches := (fullMatches.filter (fun m => m = requestedName)).length
      if numExactMatches = 1 then .ok requestedName
      else if numExactMatches = 0 then .error (.ambiguous requestedName fullMatches)
      else .error (.duplicate requestedName numExactMatches)

/-- `resolveMod` resolves against the names of the catalog's manifests. -/
def resolveMod (ms : List Manifest) (requestedName : String) :
    Except ResolveError String :=
  resolveModName (ms.map Manifest.name) requestedName

example : resolveModName ["RandoPlus", "Rando Vanilla Tracker", "TrandoPlus"] "rando" =
    .error (.ambiguous "rando" ["RandoPlus", "Rando Vanilla Tracker", "TrandoPlus"]) := by
  decide

example : resolveModName ["RandoPlus", "TrandoPlus"] "randoplus" = .ok "RandoPlus" := by
  decide

/-- C1: `resolveModName` follows the three-tier escalation exactly.  Tier 1:
the case-insensitive substring matches decide `NotFound` (empty) or an
immediate answer (singleton).  Tier 2: otherwise the case-insensitive-equal
subset decides `Ambiguous` over the unnarrowed match set (empty) or an
immediate answer (singleton).  Tier 3: otherwise the number of names equal to
the request with exact case decides the result: one yields the request itself,
zero yields `Ambiguous` over the case-insensitive-equal set, several yield
`DuplicateExact` with that count. -/
theorem resolveModName_three_tier (ms : List String) (r : String) :
    (ms.filter (fun m => containsCI m r) = [] →
      resolveModName ms r = .error (.notFound r)) ∧
    (∀ m, ms.filter (fun m => containsCI m r) = [m] →
      resolveModName ms r = .ok m) ∧
    (2 ≤ (ms.filter (fun m => containsCI m r)).length →
      (ms.filter (fun m => containsCI m r)).filter (fun m => eqFold m r) = [] →
      resolveModName ms r = .error (.ambiguous r (ms.filter (fun m => containsCI m r)))) ∧
    (2 ≤ (ms.filter (fun m => containsCI m r)).length →
      ∀ m, (ms.filter (fun m => containsCI m r)).filter (fun m => eqFold m r) = [m] →
      resolveModName ms r = .ok m) ∧
    (2 ≤ (ms.filter (fun m => containsCI m r)).length →
      2 ≤ ((ms.filter (fun m => containsCI m r)).filter (fun m => eqFold m r)).length →
      ((((ms.filter (fun m => containsCI m r)).filter (fun m => eqFold m r)).filter
        (fun m => m = r)).length = 1 →
        resolveModName ms r = .ok r) ∧
      ((((ms.filter (fun m => containsCI m r)).filter (fun m => eqFold m r)).filter
        (fun m => m = r)).length = 0 →
        resolveModName ms r = .error (.ambiguous r
          ((ms.filter (fun m => containsCI m r)).filter (fun m => eqFold m r)))) ∧
      (2 ≤ (((ms.filter (fun m => containsCI m r)).filter (fun m => eqFold m r)).filter
        (fun m => m = r)).length →
        resolveModName ms r = .error (.duplicate r
          ((((ms.filter (fun m => containsCI m r)).filter (fun m => eqFold m r)).filter
            (fun m => m = r)).length)))) := by
  rcases hsub : ms.filter (fun m => containsCI m r) with _ | ⟨m1, _ | ⟨m2, rest⟩⟩
  · have hrm : resolveModName ms r = .error (.notFound r) := by
      unfold resolveModName; rw [hsub]
    exact ⟨fun _ => hrm, fun m hm => by simp at hm, fun h2 => by simp at h2,
      fun h2 => by simp at h2, fun h2 => by simp at h2⟩
  · have hrm : resolveModName ms r = .ok m1 := by
      unfold resolveModName; rw [hsub]
    refine ⟨fun h => by simp at h, fun m hm => ?_, fun h2 => by simp at h2,
      fun h2 => by simp at h2, fun h2 => by simp at h2⟩
    obtain rfl : m1 = m := by simpa using hm
    exact hrm
  · refine ⟨fun h => by simp at h, fun m hm => by simp at hm, fun _ hfull => ?_,
      fun _ m hfull => ?_, fun _ h2full => ?_⟩
    · have hrm : resolveModName ms r = .error (.ambiguous r (m1 :: m2 :: rest)) := by
        unfold resolveModName; rw [hsub]; dsimp only; rw [hfull]
      exact hrm
    · have hrm : resolveModName ms r = .ok m := by
        unfold resolveModName; rw [hsub]; dsimp only; rw [hfull]
      exact hrm
    · rcases hfull : (m1 :: m2 :: rest).filter (fun m => eqFold m r) with _ | ⟨f1, _ | ⟨f2, frest⟩⟩
      · rw [hfull] at h2full; simp at h2full
      · rw [hfull] at h2full; simp at h2full
      · have hrm : resolveModName ms r =
            (if ((f1 :: f2 :: frest).filter (fun m => m = r)).length = 1 then Except.ok r
            else if ((f1 :: f2 :: frest).filter (fun m => m = r)).length = 0 then
              Except.error (.ambiguous r (f1 :: f2 :: frest))
            else Except.error
              (.duplicate r (((f1 :: f2 :: frest).filter (fun m => m = r)).length))) := by
          unfold resolveModName; rw [hsub]; dsimp only; rw [hfull]
        refine ⟨fun h1 => ?_, fun h0 => ?_, fun hmany => ?_⟩
        · rw [hrm, if_pos h1]
        · rw [hrm, if_neg (by simp [h0]), if_pos h0]
        · rw [hrm, if_neg (by omega), if_neg (by omega)]

/-- Witness for C1, on the spec's concrete scenario: three names match
`"rando"` case-insensitively, none is case-insensitive-equal, so tier 2
reports `Ambiguous` over all three. -/
theorem resolveModName_three_tier_witness :
    resolveModName ["RandoPlus", "Rando Vanilla Tracker", "TrandoPlus"] "rando" =
      .error (.ambiguous "rando" ["RandoPlus", "Rando Vanilla Tracker", "TrandoPlus"]) :=
  ((resolveModName_three_tier ["RandoPlus", "Rando Vanilla Tracker", "TrandoPlus"]
    "rando").2.2.1 (by decide) (by decide)).trans (by decide)

/-! ## Record merging (`Manifest.Merge`, modlinks.go lines 81-93)

The Go method mutates its receiver; the model returns the updated record.
`Link` and `Version` are copied from the patch unconditionally; `Description`
and `Repository` only when non-empty in the patch; `Dependencies` only when
the patch's slice is non-nil.  `Name` and `OSLinks` are never touched. -/

def Manifest.merge (m patch : Manifest) : Manifest :=
  { m with
    link := patch.link
    version := patch.version
    description := if patch.description ≠ "" then patch.description else m.description
    repository := if patch.repository ≠ "" then patch.repository else m.repository
    dependencies := match patch.dependencies with
      | some d => some d
      | none => m.dependencies }

/-- C6 counterexample: the `name` field is present (non-empty) in the patch
yet `Merge` does not take it from the patch, so "each other field present in
patch overrides existing's value" fails at this input. -/
theorem merge_patch_name_counterexample :
    (Manifest.merge
        { name := "Y", description := "d", version := "1", link := ⟨"a", "u"⟩,
          osLinks := none, dependencies := none, repository := "r" }
        { name := "X", description := "", version := "2", link := ⟨"b", "v"⟩,
          osLinks := none, dependencies := none, repository := "" }).name = "Y" ∧
      ("X" : String) ≠ "" ∧ ("Y" : String) ≠ "X" := by
  decide

/-- C6 (amended): `Merge` takes `version` and `link` from the patch
unconditionally; `description` and `repository` override only when non-empty
in the patch and are retained otherwise; a `none` (nil) dependency list in the
patch retains the existing list while `some d` (even the empty list) replaces
it; `name` and the per-platform link set always keep the existing record's
values. -/
theorem merge_characterization (e p : Manifest) :
    ((e.merge p).version = p.version) ∧
    ((e.merge p).link = p.link) ∧
    ((e.merge p).name = e.name) ∧
    ((e.merge p).osLinks = e.osLinks) ∧
    (p.description ≠ "" → (e.merge p).description = p.description) ∧
    (p.description = "" → (e.merge p).description = e.description) ∧
    (p.repository ≠ "" → (e.merge p).repository = p.repository) ∧
    (p.repository = "" → (e.merge p).repository = e.repository) ∧
    (p.dependencies = none → (e.merge p).dependencies = e.dependencies) ∧
    (∀ d, p.dependencies = some d → (e.merge p).dependencies = some d) := by
  refine ⟨rfl, rfl, rfl, rfl, fun h => ?_, fun h => ?_, fun h => ?_, fun h => ?_,
    fun h => ?_, fun d h => ?_⟩ <;> simp [Manifest.merge, h]

/-- Witness for C6's amended characterization at a concrete record pair:
the patch's non-empty description wins, its empty repository loses, and its
explicitly empty dependency list replaces the existing one. -/
theorem merge_characterization_witness :
    (Manifest.merge
        { name := "Y", description := "old", version := "1", link := ⟨"a", "u"⟩,
          osLinks := none, dependencies := some ["Q"], repository := "r" }
        { name := "Y", description := "new", version := "2", link := ⟨"b", "v"⟩,
          osLinks := none, dependencies := some [], repository := "" }).description = "new" := by
  exact (merge_characterization _ _).2.2.2.2.1 (by decide)

/-! ## Link selection (`selectLink`, main program)

`runtime.GOOS` becomes the explicit parameter `goos`.  The Go `switch` leaves
`osLink` as the zero `Link` value for any platform other than the three named
ones, and the subsequent empty-hash check turns that into an error. -/

def zeroLink : Link := ⟨"", ""⟩

/-- The `switch runtime.GOOS` block of `selectLink`. -/
def platformLink (goos : String) (os : OSLinkSet) : Link :=
  if goos = "windows" then os.windows
  else if goos = "darwin" then os.mac
  else if goos = "linux" then os.linux
  else zeroLink

/-- `selectLink`: prefer the default link when its hash is non-empty,
otherwise the per-platform link, failing on a nil link set or an empty
platform hash.  The Go function returns `(Link, error)`; an error is modelled
as `Except.error`. -/
def selectLink (goos : String) (mod : Manifest) : Except String Link :=
  if mod.link.sha256 ≠ "" then .ok mod.link
  else match mod.osLinks with
    | none => .error "no general or platform-specific link specified"
    | some os =>
      if (platformLink goos os).sha256 = "" then .error ("unsupported OS: " ++ goos)
      else .ok (platformLink goos os)

/-- `Except.isOk`-style discriminator used to state error conditions. -/
def isErr {ε α : Type} : Except ε α → Bool
  | .error _ => true
  | .ok _ => false

/-- C8: link selection returns the default link when its hash is non-empty;
otherwise it selects the caller's platform's link and fails exactly when there
is no per-platform set at all or the selected platform's entry (including the
zero entry produced for a platform outside windows/darwin/linux) has an empty
hash. -/
theorem selectLink_characterization (goos : String) (mod : Manifest) :
    (mod.link.sha256 ≠ "" → selectLink goos mod = .ok mod.link) ∧
    (mod.link.sha256 = "" →
      (isErr (selectLink goos mod) = true ↔
        (mod.osLinks = none ∨
          ∃ os, mod.osLinks = some os ∧ (platformLink goos os).sha256 = ""))) ∧
    (mod.link.sha256 = "" → ∀ os, mod.osLinks = some os →
      (platformLink goos os).sha256 ≠ "" →
      selectLink goos mod = .ok (platformLink goos os)) ∧
    (goos ≠ "windows" → goos ≠ "darwin" → goos ≠ "linux" →
      ∀ os, platformLink goos os = zeroLink) := by
  refine ⟨fun h => ?_, fun h => ?_, fun h os hos hsha => ?_, fun h1 h2 h3 os => ?_⟩
  · simp [selectLink, h]
  · cases hos : mod.osLinks with
    | none => simp [selectLink, h, hos, isErr]
    | some os =>
      by_cases hsha : (platformLink goos os).sha256 = "" <;>
        simp [selectLink, h, hos, isErr, hsha]
  · simp [selectLink, h, hos, hsha]
  · simp [platformLink, h1, h2, h3]

/-- Witness for C8 at a concrete record: empty default hash, a per-platform
set whose linux entry has a non-empty hash, requested from `"linux"`. -/
theorem selectLink_characterization_witness :
    selectLink "linux"
      { name := "M", description := "", version := "", link := ⟨"", ""⟩,
        osLinks := some ⟨⟨"w", "uw"⟩, ⟨"m", "um"⟩, ⟨"l", "ul"⟩⟩,
        dependencies := none, repository := "" } = .ok ⟨"l", "ul"⟩ := by
  exact ((selectLink_characterization "linux" _).2.2.1 (by decide) _ rfl
    (by decide)).trans (by decide)

/-! ## Catalog loading (`Get`, modlinks.go lines 33-59, and `trim`, lines 61-65)

After a successful XML decode (the transport and the XML decoder are external
collaborators; `manifests` below is the decoded record list), `Get` trims the
URL and repository fields of every record:

    trim(&m.Link.URL, &m.OSLinks.Windows.URL, &m.OSLinks.Linux.URL,
         &m.OSLinks.Mac.URL, &m.Repository)

`m.OSLinks` is a nil pointer whenever the record carries only a single
default link, and `&m.OSLinks.Windows.URL` then dereferences nil and the
process panics.  `none` models that panic. -/

/-- `strings.TrimSpace`: drop leading and trailing whitespace. -/
def trimSpace (s : String) : String :=
  ⟨((s.data.dropWhile Char.isWhitespace).reverse.dropWhile Char.isWhitespace).reverse⟩

def trimManifest (m : Manifest) : Option Manifest :=
  match m.osLinks with
  | none => none
  | some os => some { m with
      link := { m.link with url := trimSpace m.link.url },
      osLinks := some
        { windows := { os.windows with url := trimSpace os.windows.url },
          linux := { os.linux with url := trimSpace os.linux.url },
          mac := { os.mac with url := trimSpace os.mac.url } },
      repository := trimSpace m.repository }

/-- The post-decode loop of `Get`: trim every record, propagating the panic. -/
def getTrimAll : List Manifest → Option (List Manifest)
  | [] => some []
  | m :: rest =>
    match trimManifest m with
    | none => none
    | some t =>
      match getTrimAll rest with
      | none => none
      | some ts => some (t :: ts)

/-- C9 (code bug): a well-formed catalog in which some record carries only a
single default link and no per-platform link set makes `Get` crash (nil
pointer dereference inside `trim`) instead of returning the record list;
a record that does carry a per-platform set is trimmed and returned. -/
theorem get_crashes_without_platform_links :
    (∀ (ms : List Manifest) (m : Manifest), m ∈ ms → m.osLinks = none →
      getTrimAll ms = none) ∧
    getTrimAll
      [{ name := "OnlyDefaultLink", description := "d", version := "1",
         link := ⟨"abcd", "https://example.invalid/mod.zip"⟩,
         osLinks := none, dependencies := none, repository := "" }] = none ∧
    getTrimAll
      [{ name := "PlatformMod", description := "d", version := "1",
         link := ⟨"", ""⟩,
         osLinks := some ⟨⟨"w", " uw "⟩, ⟨"m", " um "⟩, ⟨"l", " ul "⟩⟩,
         dependencies := none, repository := " r " }] =
      some [{ name := "PlatformMod", description := "d", version := "1",
              link := ⟨"", ""⟩,
              osLinks := some ⟨⟨"w", "uw"⟩, ⟨"m", "um"⟩, ⟨"l", "ul"⟩⟩,
              dependencies := none, repository := "r" }] := by
  refine ⟨fun ms m hmem hnone => ?_, by decide, by decide⟩
  induction ms with
  | nil => cases hmem
  | cons head tail ih =>
    rcases List.mem_cons.1 hmem with hmem | hmem
    · subst hmem
      simp [getTrimAll, trimManifest, hnone]
    · cases hos : trimManifest head with
      | none => simp [getTrimAll, hos]
      | some t => simp [getTrimAll, hos, ih hmem]

/-- Witness for C9's universally quantified crash clause at a concrete
catalog: a two-record catalog whose second record lacks a per-platform set. -/
theorem get_crashes_without_platform_links_witness :
    getTrimAll
      [{ name := "HasLinks", description := "", version := "",
         link := ⟨"", ""⟩, osLinks := some ⟨⟨"w", "uw"⟩, ⟨"m", "um"⟩, ⟨"l", "ul"⟩⟩,
         dependencies := none, repository := "" },
       { name := "NoLinks", description := "", version := "",
         link := ⟨"h", "u"⟩, osLinks := none, dependencies := none,
         repository := "" }] = none :=
  (get_crashes_without_platform_links).1
    [{ name := "HasLinks", description := "", version := "",
       link := ⟨"", ""⟩, osLinks := some ⟨⟨"w", "uw"⟩, ⟨"m", "um"⟩, ⟨"l", "ul"⟩⟩,
       dependencies := none, repository := "" },
     { name := "NoLinks", description := "", version := "",
       link := ⟨"h", "u"⟩, osLinks := none, dependencies := none,
       repository := "" }]
    { name := "NoLinks", description := "", version := "",
      link := ⟨"h", "u"⟩, osLinks := none, dependencies := none,
      repository := "" }
    (by simp) rfl

/-! ## Version padding (`padVersion`, main program)

`strings.Split(v, ".")` and `strings.Join(nums, ".")` are modelled on the
character list of the string. -/

/-- `strings.Split(v, ".")`: split at every dot; always non-empty. -/
def splitOnDot : List Char → List (List Char)
  | [] => [[]]
  | c :: cs =>
    if c = '.' then [] :: splitOnDot cs
    else match splitOnDot cs with
      | [] => [[c]]
      | p :: ps => (c :: p) :: ps

/-- `strings.Join(parts, ".")`. -/
def joinDot : List (List Char) → List Char
  | [] => []
  | [p] => p
  | p :: q :: qs => p ++ '.' :: joinDot (q :: qs)

/-- The `for len(nums) < 4 { nums = append(nums, "0") }` loop. -/
def padComponents (nums : List (List Char)) : List (List Char) :=
  nums ++ List.replicate (4 - nums.length) ['0']

/-- `padVersion`: split on dots, append `"0"` components up to four, rejoin. -/
def padVersion (v : String) : String :=
  ⟨joinDot (padComponents (splitOnDot v.data))⟩

theorem splitOnDot_ne_nil (v : List Char) : splitOnDot v ≠ [] := by
  cases v with
  | nil => simp [splitOnDot]
  | cons c cs =>
    by_cases h : c = '.'
    · simp [splitOnDot, h]
    · cases hs : splitOnDot cs <;> simp [splitOnDot, h, hs]

theorem joinDot_splitOnDot (v : List Char) : joinDot (splitOnDot v) = v := by
  induction v with
  | nil => rfl
  | cons c cs ih =>
    by_cases h : c = '.'
    · subst h
      cases hs : splitOnDot cs with
      | nil => exact absurd hs (splitOnDot_ne_nil cs)
      | cons p ps =>
        rw [hs] at ih
        simp only [splitOnDot, if_pos rfl, hs, joinDot]
        simpa using ih
    · cases hs : splitOnDot cs with
      | nil => exact absurd hs (splitOnDot_ne_nil cs)
      | cons p ps =>
        rw [hs] at ih
        cases ps with
        | nil =>
          simp only [splitOnDot, if_neg h, hs, joinDot] at ih ⊢
          simp [ih]
        | cons q qs =>
          simp only [splitOnDot, if_neg h, hs, joinDot] at ih ⊢
          simp [ih]

theorem splitOnDot_no_dot (v : List Char) : ∀ p ∈ splitOnDot v, '.' ∉ p := by
  induction v with
  | nil => simp [splitOnDot]
  | cons c cs ih =>
    by_cases h : c = '.'
    · simpa [splitOnDot, h] using ih
    · cases hs : splitOnDot cs with
      | nil => exact absurd hs (splitOnDot_ne_nil cs)
      | cons p ps =>
        rw [hs] at ih
        simp only [splitOnDot, if_neg h, hs, List.mem_cons]
        rintro q (rfl | hq)
        · simp only [List.mem_cons, not_or]
          exact ⟨fun hdot => h hdot.symm, fun hdot => ih p (by simp) hdot⟩
        · exact ih q (List.mem_cons_of_mem p hq)

theorem splitOnDot_of_no_dot (p : List Char) (hp : '.' ∉ p) : splitOnDot p = [p] := by
  induction p with
  | nil => rfl
  | cons c cs ih =>
    have hc : ¬ c = '.' := fun hc => hp (by simp [hc])
    have hcs : splitOnDot cs = [cs] := ih (fun hd => hp (by simp [hd]))
    simp [splitOnDot, hc, hcs]

theorem splitOnDot_append (p rest : List Char) (hp : '.' ∉ p) :
    splitOnDot (p ++ '.' :: rest) = p :: splitOnDot rest := by
  induction p with
  | nil => simp [splitOnDot]
  | cons c cs ih =>
    have hc : ¬ c = '.' := fun hc => hp (by simp [hc])
    have hcs : splitOnDot (cs ++ '.' :: rest) = cs :: splitOnDot rest :=
      ih (fun hd => hp (by simp [hd]))
    cases hrest : splitOnDot rest with
    | nil => exact absurd hrest (splitOnDot_ne_nil rest)
    | cons r rs =>
      rw [hrest] at hcs
      simp [splitOnDot, hc, hcs, hrest]

theorem splitOnDot_joinDot (parts : List (List Char)) (hne : parts ≠ [])
    (hnd : ∀ p ∈ parts, '.' ∉ p) : splitOnDot (joinDot parts) = parts := by
  induction parts with
  | nil => exact absurd rfl hne
  | cons p ps ih =>
    cases ps with
    | nil => exact splitOnDot_of_no_dot p (hnd p (by simp))
    | cons q qs =>
      have hrest : splitOnDot (joinDot (q :: qs)) = q :: qs :=
        ih (by simp) (fun r hr => hnd r (List.mem_cons_of_mem p hr))
      rw [joinDot, splitOnDot_append p (joinDot (q :: qs)) (hnd p (by simp)), hrest]

/-- C10: the version written by publish always has at least four
dot-separated components: `padVersion` appends `"0"` components up to four
(and exactly those), leaves a version with four or more components unchanged,
and turns `"1.3"` into `"1.3.0.0"`; the merge that publish splices into the
catalog takes exactly the patch's (padded) version. -/
theorem padVersion_four_components (v : String) :
    4 ≤ (splitOnDot (padVersion v).data).length ∧
    splitOnDot (padVersion v).data =
      splitOnDot v.data ++ List.replicate (4 - (splitOnDot v.data).length) ['0'] ∧
    (4 ≤ (splitOnDot v.data).length → padVersion v = v) ∧
    padVersion "1.3" = "1.3.0.0" ∧
    (∀ e p : Manifest, (Manifest.merge e p).version = p.version) := by
  have hsplit : splitOnDot (padVersion v).data =
      splitOnDot v.data ++ List.replicate (4 - (splitOnDot v.data).length) ['0'] := by
    show splitOnDot (joinDot (padComponents (splitOnDot v.data))) = _
    rw [splitOnDot_joinDot]
    · rfl
    · have := splitOnDot_ne_nil v.data
      simp only [padComponents, ne_eq, List.append_eq_nil, not_and]
      intro h
      exact absurd h this
    · intro p hp
      rcases List.mem_append.1 hp with hp | hp
      · exact splitOnDot_no_dot v.data p hp
      · rw [List.eq_of_mem_replicate hp]
        simp
  refine ⟨?_, hsplit, fun h4 => ?_, by decide, fun e p => rfl⟩
  · rw [hsplit]
    simp only [List.length_append, List.length_replicate]
    omega
  · show String.mk (joinDot (padComponents (splitOnDot v.data))) = v
    have hpad : padComponents (splitOnDot v.data) = splitOnDot v.data := by
      simp [padComponents, Nat.sub_eq_zero_of_le h4]
    rw [hpad, joinDot_splitOnDot]

/-- Witness for C10's "four or more components are left unchanged" clause. -/
theorem padVersion_four_components_witness : padVersion "1.2.3.4.5" = "1.2.3.4.5" :=
  (padVersion_four_components "1.2.3.4.5").2.2.1 (by decide)

/-! ## Dependency closure (`TransitiveClosure` / `transitiveClosure`,
modlinks.go lines 101-139)

The Go recursion over `mod.Dependencies` with the `resultSet` visited map is
translated to its equivalent worklist form: the stack holds the names still
to visit, and visiting a found record pushes its dependency list in front of
the remaining stack, exactly as the recursive calls would process them.
`resultSet` and `missingModSet` are maps used as sets; they become duplicate-
free lists.  Termination, which in Go follows from the visited check, is
proved from the decreasing count of catalog names not yet visited. -/

/-- Go's `modsByName` map: built by writing each record in catalog order, so
for duplicate names the last record wins. -/
def lookupMod (mbn : List Manifest) (name : String) : Option Manifest :=
  mbn.reverse.find? (fun m => m.name == name)

theorem lookupMod_mem {mbn : List Manifest} {name : String} {m : Manifest}
    (h : lookupMod mbn name = some m) : m ∈ mbn ∧ m.name = name := by
  unfold lookupMod at h
  exact ⟨(List.mem_reverse).1 (List.mem_of_find?_eq_some h),
    by simpa using List.find?_some h⟩

/-- `missingMods[modName] = true`: set insertion. -/
def insertMissing (name : String) (missing : List String) : List String :=
  if name ∈ missing then missing else name :: missing

/-- Catalog names not yet visited: the decreasing measure of the walk. -/
def unvisited (mbn : List Manifest) (result : List String) : Nat :=
  ((mbn.map Manifest.name).toFinset \ result.toFinset).card

theorem unvisited_cons_lt {mbn : List Manifest} {result : List String}
    {name : String} (hmem : name ∈ mbn.map Manifest.name) (hvis : name ∉ result) :
    unvisited mbn (name :: result) < unvisited mbn result := by
  unfold unvisited
  have hname : name ∈ (mbn.map Manifest.name).toFinset \ result.toFinset := by
    simp [List.mem_toFinset.2 hmem, hvis]
  rw [List.toFinset_cons, Finset.sdiff_insert]
  exact Finset.card_erase_lt_of_mem hname

/-- The recursive `transitiveClosure` (lines 126-139) in worklist form:
a visited name is skipped, a name absent from the catalog goes to the missing
set, and a found record is visited and its dependencies (nil iterates zero
times) are pushed for processing. -/
def tcLoop (mbn : List Manifest) (stack result missing : List String) :
    List String × List String :=
  match stack with
  | [] => (result, missing)
  | name :: rest =>
    if hvis : name ∈ result then tcLoop mbn rest result missing
    else
      match hlook : lookupMod mbn name with
      | none => tcLoop mbn rest result (insertMissing name missing)
      | some m => tcLoop mbn (m.dependencies.getD [] ++ rest) (name :: result) missing
termination_by (unvisited mbn result, stack.length)
decreasing_by
  · exact Prod.Lex.right _ (by simp)
  · exact Prod.Lex.right _ (by simp)
  · exact Prod.Lex.left _ _
      (unvisited_cons_lt (List.mem_map.2
        ⟨m, (lookupMod_mem hlook).1, (lookupMod_mem hlook).2⟩) hvis)

/-- `TransitiveClosure` (lines 101-124): walk from every requested name, then
return the visited records and the missing names.  Go materialises
`resultSet`'s values by map iteration; here the stored records are recovered
by looking each visited name up again, which yields the same records because
a name is only visited when its lookup succeeds. -/
def TransitiveClosure (allModlinks : List Manifest) (mods : List String) :
    List Manifest × List String :=
  let r := tcLoop allModlinks mods [] []
  (r.1.filterMap (fun n => lookupMod allModlinks n), r.2)

theorem filterMap_lookup_names (cat : List Manifest) (ns : List String) :
    (ns.filterMap (fun n => lookupMod cat n)).map Manifest.name =
      ns.filter (fun n => (lookupMod cat n).isSome) := by
  induction ns with
  | nil => rfl
  | cons n rest ih =>
    cases hl : lookupMod cat n with
    | none => simp [hl, ih]
    | some m => simp [hl, ih, (lookupMod_mem hl).2]

theorem tcLoop_invariants (mbn : List Manifest) : ∀ stack result missing,
    result.Nodup → (∀ n ∈ missing, lookupMod mbn n = none) →
    (tcLoop mbn stack result missing).1.Nodup ∧
    (∀ n ∈ (tcLoop mbn stack result missing).2, lookupMod mbn n = none) ∧
    (∀ n ∈ result, n ∈ (tcLoop mbn stack result missing).1) := by
  intro stack result missing
  induction stack, result, missing using tcLoop.induct mbn with
  | case1 result missing =>
    intro h1 h2
    exact ⟨by simpa [tcLoop] using h1, by simpa [tcLoop] using h2, by simp [tcLoop]⟩
  | case2 result missing name rest hvis ih =>
    intro h1 h2
    rw [tcLoop]
    simp only [dif_pos hvis]
    exact ih h1 h2
  | case3 result missing name rest hvis hlook ih =>
    intro h1 h2
    have h2i : ∀ n ∈ insertMissing name missing, lookupMod mbn n = none := by
      intro n hn
      unfold insertMissing at hn
      by_cases hmem : name ∈ missing
      · exact h2 n (by simpa [hmem] using hn)
      · rcases List.mem_cons.1 (by simpa [hmem] using hn) with rfl | hn2
        · exact hlook
        · exact h2 n hn2
    rw [tcLoop]
    simp only [dif_neg hvis]
    split
    · exact ih h1 h2i
    · rename_i m2 heq
      rw [hlook] at heq
      cases heq
  | case4 result missing name rest hvis m hlook ih =>
    intro h1 h2
    rw [tcLoop]
    simp only [dif_neg hvis]
    split
    · rename_i heq
      rw [hlook] at heq
      cases heq
    · rename_i m2 heq
      rw [hlook] at heq
      cases heq
      have h := ih (List.Nodup.cons hvis h1) h2
      exact ⟨h.1, h.2.1, fun n hn => h.2.2 n (List.mem_cons_of_mem name hn)⟩

/-- Unfolding equation for a visited stack head. -/
theorem tcLoop_visited_step {mbn : List Manifest} {name : String}
    {result : List String} (hvis : name ∈ result) (rest missing : List String) :
    tcLoop mbn (name :: rest) result missing = tcLoop mbn rest result missing := by
  rw [tcLoop]
  simp only [dif_pos hvis]

/-- Unfolding equation for a stack head absent from the catalog. -/
theorem tcLoop_missing_step {mbn : List Manifest} {name : String}
    {result : List String} (hvis : name ∉ result)
    (hlook : lookupMod mbn name = none) (rest missing : List String) :
    tcLoop mbn (name :: rest) result missing =
      tcLoop mbn rest result (insertMissing name missing) := by
  rw [tcLoop]
  simp only [dif_neg hvis]
  split
  · rfl
  · rename_i m2 heq
    rw [hlook] at heq
    cases heq

/-- Unfolding equation for a stack head found in the catalog. -/
theorem tcLoop_found_step {mbn : List Manifest} {name : String}
    {result : List String} {m : Manifest} (hvis : name ∉ result)
    (hlook : lookupMod mbn name = some m) (rest missing : List String) :
    tcLoop mbn (name :: rest) result missing =
      tcLoop mbn (m.dependencies.getD [] ++ rest) (name :: result) missing := by
  rw [tcLoop]
  simp only [dif_neg hvis]
  split
  · rename_i heq
    rw [hlook] at heq
    cases heq
  · rename_i m2 heq
    rw [hlook] at heq
    cases heq
    rfl

theorem mem_insertMissing {x name : String} {missing : List String}
    (h : x ∈ missing) : x ∈ insertMissing name missing := by
  unfold insertMissing
  split
  · exact h
  · exact List.mem_cons_of_mem _ h

theorem self_mem_insertMissing (name : String) (missing : List String) :
    name ∈ insertMissing name missing := by
  unfold insertMissing
  split
  · assumption
  · exact List.mem_cons_self _ _

/-- The missing set only grows during the walk. -/
theorem tcLoop_missing_mono (mbn : List Manifest) : ∀ stack result missing,
    ∀ x ∈ missing, x ∈ (tcLoop mbn stack result missing).2 := by
  intro stack result missing
  induction stack, result, missing using tcLoop.induct mbn with
  | case1 result missing =>
    intro x hx
    simpa [tcLoop] using hx
  | case2 result missing name rest hvis ih =>
    intro x hx
    rw [tcLoop_visited_step hvis]
    exact ih x hx
  | case3 result missing name rest hvis hlook ih =>
    intro x hx
    rw [tcLoop_missing_step hvis hlook]
    exact ih x (mem_insertMissing hx)
  | case4 result missing name rest hvis m hlook ih =>
    intro x hx
    rw [tcLoop_found_step hvis hlook]
    exact ih x hx

/-- Every name on the stack that is absent from the catalog is recorded in
the missing set (given that only found names are ever marked visited, an
absent name can never be skipped by the visited check). -/
theorem tcLoop_stack_missing (mbn : List Manifest) : ∀ stack result missing,
    (∀ r ∈ result, (lookupMod mbn r).isSome) →
    ∀ n ∈ stack, lookupMod mbn n = none →
    n ∈ (tcLoop mbn stack result missing).2 := by
  intro stack result missing
  induction stack, result, missing using tcLoop.induct mbn with
  | case1 result missing =>
    intro hres n hn hnone
    exact absurd hn (List.not_mem_nil n)
  | case2 result missing name rest hvis ih =>
    intro hres n hn hnone
    rw [tcLoop_visited_step hvis]
    rcases List.mem_cons.1 hn with rfl | hn2
    · have hsome := hres n hvis
      rw [hnone] at hsome
      simp at hsome
    · exact ih hres n hn2 hnone
  | case3 result missing name rest hvis hlook ih =>
    intro hres n hn hnone
    rw [tcLoop_missing_step hvis hlook]
    rcases List.mem_cons.1 hn with rfl | hn2
    · exact tcLoop_missing_mono mbn rest result (insertMissing n missing) n
        (self_mem_insertMissing n missing)
    · exact ih hres n hn2 hnone
  | case4 result missing name rest hvis m hlook ih =>
    intro hres n hn hnone
    rw [tcLoop_found_step hvis hlook]
    rcases List.mem_cons.1 hn with rfl | hn2
    · rw [hlook] at hnone
      cases hnone
    · have hres2 : ∀ r ∈ name :: result, (lookupMod mbn r).isSome := by
        intro r hr
        rcases List.mem_cons.1 hr with rfl | hr2
        · rw [hlook]
          rfl
        · exact hres r hr2
      exact ih hres2 n (List.mem_append_right _ hn2) hnone

/-- Every record visited during the walk has its dependency list pushed, so
each of its dependencies that is absent from the catalog is recorded in the
missing set. -/
theorem tcLoop_deps_missing (mbn : List Manifest) : ∀ stack result missing,
    (∀ r ∈ result, (lookupMod mbn r).isSome) →
    ∀ n mf, n ∈ (tcLoop mbn stack result missing).1 → n ∉ result →
      lookupMod mbn n = some mf →
      ∀ d ∈ mf.dependencies.getD [], lookupMod mbn d = none →
      d ∈ (tcLoop mbn stack result missing).2 := by
  intro stack result missing
  induction stack, result, missing using tcLoop.induct mbn with
  | case1 result missing =>
    intro hres n mf hn hnin hlookn d hd hdnone
    simp only [tcLoop] at hn
    exact absurd hn hnin
  | case2 result missing name rest hvis ih =>
    intro hres n mf hn hnin hlookn d hd hdnone
    rw [tcLoop_visited_step hvis] at hn ⊢
    exact ih hres n mf hn hnin hlookn d hd hdnone
  | case3 result missing name rest hvis hlook ih =>
    intro hres n mf hn hnin hlookn d hd hdnone
    rw [tcLoop_missing_step hvis hlook] at hn ⊢
    exact ih hres n mf hn hnin hlookn d hd hdnone
  | case4 result missing name rest hvis m hlook ih =>
    intro hres n mf hn hnin hlookn d hd hdnone
    have hres2 : ∀ r ∈ name :: result, (lookupMod mbn r).isSome := by
      intro r hr
      rcases List.mem_cons.1 hr with rfl | hr2
      · rw [hlook]
        rfl
      · exact hres r hr2
    rw [tcLoop_found_step hvis hlook] at hn ⊢
    by_cases hne : n = name
    · subst hne
      rw [hlookn] at hlook
      cases hlook
      exact tcLoop_stack_missing mbn _ _ missing hres2 d
        (List.mem_append_left _ hd) hdnone
    · have hnin2 : n ∉ name :: result := by
        intro hc
        rcases List.mem_cons.1 hc with h | h
        · exact hne h
        · exact hnin h
      exact ih hres2 n mf hn hnin2 hlookn d hd hdnone

/-- A minimal record for concrete closure scenarios. -/
def mkMod (name : String) (deps : List String) : Manifest :=
  { name := name, description := "", version := "", link := ⟨"", ""⟩,
    osLinks := none, dependencies := some deps, repository := "" }

/-- C3: the walk terminates on every catalog (`TransitiveClosure` is a total
function whose recursion is well-founded on the unvisited-name count), visits
each record at most once — the returned record list never contains two
records with the same name — and on the cyclic catalog where A and B depend
on each other the closure of `["A"]` is exactly the set `{A, B}` with nothing
missing. -/
theorem closure_terminates_no_duplicates :
    (∀ (cat : List Manifest) (mods : List String),
      ((TransitiveClosure cat mods).1.map Manifest.name).Nodup) ∧
    List.Perm
      ((TransitiveClosure [mkMod "A" ["B"], mkMod "B" ["A"]] ["A"]).1.map Manifest.name)
      ["A", "B"] ∧
    (TransitiveClosure [mkMod "A" ["B"], mkMod "B" ["A"]] ["A"]).2 = [] := by
  have hconc : TransitiveClosure [mkMod "A" ["B"], mkMod "B" ["A"]] ["A"] =
      ([mkMod "B" ["A"], mkMod "A" ["B"]], []) := by
    simp [TransitiveClosure, tcLoop, lookupMod, insertMissing, mkMod, List.find?]
  refine ⟨fun cat mods => ?_, ?_, by rw [hconc]⟩
  · have hinv := tcLoop_invariants cat mods [] [] (by simp) (by simp)
    unfold TransitiveClosure
    rw [filterMap_lookup_names]
    exact List.Nodup.filter _ hinv.1
  · rw [hconc]
    simp only [List.map_cons, List.map_nil, mkMod]
    exact List.Perm.swap "A" "B" []

/-- C4: a requested or depended-upon name absent from the catalog lands in
the missing set, is excluded from the record set, and the walk continues:
the closure returns records and missing names together in one call.  The
general clauses give both directions: every missing name is absent from the
catalog and excluded from the result, and conversely every requested name
absent from the catalog, and every dependency of a returned record that is
absent from the catalog, is recorded in the missing set.  Concretely, on the
catalog {A dependsOn [B], B, C}: closing over `["A"]` gives `{A, B}` and no
missing names, closing over `["A", "Z"]` still gives `{A, B}` and missing
`{"Z"}`; and on {A dependsOn [D, B], B} with D absent, closing over `["A"]`
gives `{A, B}` and missing `{"D"}` — the depended-upon absent name is
recorded while the walk continues past it. -/
theorem closure_missing_aggregation :
    (∀ (cat : List Manifest) (mods : List String),
      (∀ n ∈ (TransitiveClosure cat mods).2, lookupMod cat n = none) ∧
      (∀ m ∈ (TransitiveClosure cat mods).1, lookupMod cat m.name = some m) ∧
      (∀ n ∈ (TransitiveClosure cat mods).2,
        n ∉ (TransitiveClosure cat mods).1.map Manifest.name) ∧
      (∀ n ∈ mods, lookupMod cat n = none → n ∈ (TransitiveClosure cat mods).2) ∧
      (∀ m ∈ (TransitiveClosure cat mods).1, ∀ d ∈ m.dependencies.getD [],
        lookupMod cat d = none → d ∈ (TransitiveClosure cat mods).2)) ∧
    List.Perm
      ((TransitiveClosure [mkMod "A" ["B"], mkMod "B" [], mkMod "C" []] ["A"]).1.map
        Manifest.name) ["A", "B"] ∧
    (TransitiveClosure [mkMod "A" ["B"], mkMod "B" [], mkMod "C" []] ["A"]).2 = [] ∧
    List.Perm
      ((TransitiveClosure [mkMod "A" ["B"], mkMod "B" [], mkMod "C" []]
        ["A", "Z"]).1.map Manifest.name) ["A", "B"] ∧
    (TransitiveClosure [mkMod "A" ["B"], mkMod "B" [], mkMod "C" []] ["A", "Z"]).2 =
      ["Z"] ∧
    List.Perm
      ((TransitiveClosure [mkMod "A" ["D", "B"], mkMod "B" []] ["A"]).1.map
        Manifest.name) ["A", "B"] ∧
    (TransitiveClosure [mkMod "A" ["D", "B"], mkMod "B" []] ["A"]).2 = ["D"] := by
  have habc1 : TransitiveClosure [mkMod "A" ["B"], mkMod "B" [], mkMod "C" []] ["A"] =
      ([mkMod "B" [], mkMod "A" ["B"]], []) := by
    simp [TransitiveClosure, tcLoop, lookupMod, insertMissing, mkMod, List.find?]
  have habc2 : TransitiveClosure [mkMod "A" ["B"], mkMod "B" [], mkMod "C" []]
      ["A", "Z"] = ([mkMod "B" [], mkMod "A" ["B"]], ["Z"]) := by
    simp [TransitiveClosure, tcLoop, lookupMod, insertMissing, mkMod, List.find?]
  have habc3 : TransitiveClosure [mkMod "A" ["D", "B"], mkMod "B" []] ["A"] =
      ([mkMod "B" [], mkMod "A" ["D", "B"]], ["D"]) := by
    simp [TransitiveClosure, tcLoop, lookupMod, insertMissing, mkMod, List.find?]
  refine ⟨fun cat mods => ?_, ?_, by rw [habc1], ?_, by rw [habc2], ?_, by rw [habc3]⟩
  · have hinv := tcLoop_invariants cat mods [] [] (by simp) (by simp)
    refine ⟨fun n hn => hinv.2.1 n hn, fun m hm => ?_, fun n hn => ?_,
      fun n hn hnone => ?_, fun m hm d hd hdnone => ?_⟩
    · rcases List.mem_filterMap.1 hm with ⟨n, _, hl⟩
      rw [(lookupMod_mem hl).2]
      exact hl
    · have hmiss : lookupMod cat n = none := hinv.2.1 n hn
      unfold TransitiveClosure
      rw [filterMap_lookup_names]
      intro hmem
      have := List.of_mem_filter hmem
      rw [hmiss] at this
      cases this
    · exact tcLoop_stack_missing cat mods [] [] (by simp) n hn hnone
    · rcases List.mem_filterMap.1 hm with ⟨n, hn1, hl⟩
      exact tcLoop_deps_missing cat mods [] [] (by simp) n m hn1 (by simp) hl
        d hd hdnone
  · rw [habc1]
    simp only [List.map_cons, List.map_nil, mkMod]
    exact List.Perm.swap "A" "B" []
  · rw [habc2]
    simp only [List.map_cons, List.map_nil, mkMod]
    exact List.Perm.swap "A" "B" []
  · rw [habc3]
    simp only [List.map_cons, List.map_nil, mkMod]
    exact List.Perm.swap "A" "B" []

/-! ## Content-verified caching (`getModFile`, main program lines 585-617, and
`downloadLink`, lines 629-670)

The filesystem and the HTTP transport are external collaborators: the cache
entry for the record is the `cacheFile` parameter (`none` when `os.Open`
reports the file does not exist), the response to `http.Get` is the `resp`
parameter (`none` for a transport failure), and SHA-256 is the abstract
`digest` parameter.  Each function returns the cache entry it leaves on disk
together with its result. -/

structure NetResponse where
  status : Nat
  body : List Nat
deriving DecidableEq, Repr

/-- `isHTTPOK` (main program). -/
def isHTTPOK (code : Nat) : Bool := 200 ≤ code && code < 300

inductive DownloadError where
  | transport
  | status (code : Nat)
  | integrityMismatch
deriving DecidableEq, Repr

/-- `downloadLink`: fetch the URL, stream the body into the cache file while
digesting it, and fail — leaving the file behind — if the digest does not
match the expected one. -/
def downloadLink (digest : List Nat → List Nat) (expectedSHA : List Nat) :
    Option NetResponse → Option (List Nat) →
    Option (List Nat) × Except DownloadError (List Nat)
  | none, cacheFile => (cacheFile, .error .transport)
  | some r, cacheFile =>
    if isHTTPOK r.status then
      if digest r.body = expectedSHA then (some r.body, .ok r.body)
      else (some r.body, .error .integrityMismatch)
    else (cacheFile, .error (.status r.status))

/-- `getModFile` after link selection and hex decoding: a present cache entry
whose digest matches is returned directly (no network access); a missing or
mismatched entry falls through to `downloadLink`. -/
def getModFile (digest : List Nat → List Nat) (expectedSHA : List Nat) :
    Option (List Nat) → Option NetResponse →
    Option (List Nat) × Except DownloadError (List Nat)
  | none, resp => downloadLink digest expectedSHA resp none
  | some data, resp =>
    if digest data = expectedSHA then (some data, .ok data)
    else downloadLink digest expectedSHA resp (some data)

/-- C2: bytes are returned only when their digest equals the record's hash:
(1) any `ok` result of `getModFile` — cache hit or fresh download — has the
expected digest, so a stale or corrupt cache entry is never returned;
(2) a cache entry with the wrong digest triggers a fresh fetch;
(3) a fetched body with the wrong digest fails with the integrity error and
leaves the file behind; and (4) that leftover file is still never returned by
a later `getModFile`, because every hit re-verifies the digest. -/
theorem cache_integrity (digest : List Nat → List Nat) (expectedSHA : List Nat)
    (cacheFile : Option (List Nat)) (resp : Option NetResponse) :
    (∀ b, (getModFile digest expectedSHA cacheFile resp).2 = .ok b →
      digest b = expectedSHA) ∧
    (∀ c, cacheFile = some c → digest c ≠ expectedSHA →
      getModFile digest expectedSHA cacheFile resp =
        downloadLink digest expectedSHA resp (some c)) ∧
    (∀ r, resp = some r → isHTTPOK r.status = true → digest r.body ≠ expectedSHA →
      downloadLink digest expectedSHA resp cacheFile =
        (some r.body, .error .integrityMismatch)) ∧
    (∀ r, resp = some r → isHTTPOK r.status = true → digest r.body ≠ expectedSHA →
      ∀ resp2 b, (getModFile digest expectedSHA (some r.body) resp2).2 = .ok b →
        digest b = expectedSHA) := by
  have hdl : ∀ (rsp : Option NetResponse) (cf : Option (List Nat)) b,
      (downloadLink digest expectedSHA rsp cf).2 = .ok b → digest b = expectedSHA := by
    intro rsp cf b h
    cases rsp with
    | none => simp [downloadLink] at h
    | some r =>
      rw [downloadLink] at h
      split_ifs at h with hok hd
      · simp at h
        rw [← h]
        exact hd
  have hget : ∀ (cf : Option (List Nat)) (rsp : Option NetResponse) b,
      (getModFile digest expectedSHA cf rsp).2 = .ok b → digest b = expectedSHA := by
    intro cf rsp b h
    cases cf with
    | none => exact hdl rsp none b (by simpa [getModFile] using h)
    | some data =>
      rw [getModFile] at h
      split_ifs at h with hd
      · simp at h
        rw [← h]
        exact hd
      · exact hdl rsp (some data) b h
  refine ⟨hget cacheFile resp, fun c hc hd => ?_, fun r hr hok hd => ?_,
    fun r hr hok hd resp2 b h => hget (some r.body) resp2 b h⟩
  · subst hc
    simp [getModFile, hd]
  · subst hr
    simp [downloadLink, hok, hd]

/-- Witness for C2 at concrete values: digest is the identity, the cache
holds stale bytes `[2]` whose digest differs from the expected `[1]`, and the
network serves body `[1]` with status 200; the fresh fetch is performed and
the stale entry is not returned. -/
theorem cache_integrity_witness :
    getModFile (fun l => l) [1] (some [2]) (some ⟨200, [1]⟩) =
      downloadLink (fun l => l) [1] (some ⟨200, [1]⟩) (some [2]) :=
  (cache_integrity (fun l => l) [1] (some [2]) (some ⟨200, [1]⟩)).2.1 [2] rfl (by decide)

/-! ## Document patching (`publish`, main program lines 1029-1080)

The catalog file's bytes are the `content` parameter; writing back through
seek/truncate/write is modelled by returning the new byte sequence, which for
the replace path is exactly `content[:s] ++ newContent ++ content[e:]` (the Go
code truncates to the final length, writes `newContent` at `s`, then writes
`content[e:]`), and for the append path `content[:e] ++ newContent ++
content[e:]` with `e` the end of the last record span.  The XML library calls
(`ParseManifest` = `xml.Unmarshal`, `EncodeManifest` = `xml.MarshalIndent`)
are the external document-model collaborators, passed as `parseM`/`encodeM`.

`regexp (?s)<Manifest>.*?</Manifest> FindAllIndex` finds, left to right and
non-overlapping, each shortest span from an opening marker to the next
closing marker; `findBlocksAux` is that scan, with a fuel argument for
structural termination (every found block consumes at least 21 characters, so
`content.length + 1` steps can never be exhausted). -/

def openTag : List Char := "<Manifest>".data

def closeTag : List Char := "</Manifest>".data

/-- One `FindAllIndex` scan step: the next block starts at the first opening
marker and ends just after the first closing marker that follows it; the scan
resumes past the block. -/
def findBlocksAux : Nat → List Char → Nat → List (Nat × Nat)
  | 0, _, _ => []
  | fuel + 1, l, off =>
    match firstOccur l openTag with
    | none => []
    | some s =>
      match firstOccur (l.drop (s + openTag.length)) closeTag with
      | none => []
      | some e =>
        (off + s, off + s + openTag.length + e + closeTag.length) ::
          findBlocksAux fuel (l.drop (s + openTag.length + e + closeTag.length))
            (off + s + openTag.length + e + closeTag.length)

def findBlocks (content : List Char) : List (Nat × Nat) :=
  findBlocksAux (content.length + 1) content 0

/-- `content[s:e]`. -/
def sliceL (content : List Char) (s e : Nat) : List Char := (content.take e).drop s

/-- The `namePattern` bytes: ``<Name>`` + name + ``</Name>``. -/
def namePatternL (name : String) : List Char := ("<Name>" ++ name ++ "</Name>").data

inductive PublishError where
  | insertionPointNotFound
  | parseFailure
deriving DecidableEq, Repr

/-- The document surgery of `publish` (lines 1038-1080): find the first record
span containing the name pattern; replace it with the re-serialized merge
(left-trimmed of spaces, as `bytes.TrimLeft(..., " ")`); with no matching span
append the new record after the last span; with no spans at all fail. -/
def publish (parseM : List Char → Except String Manifest)
    (encodeM : Manifest → List Char)
    (content : List Char) (manifestPatch : Manifest) :
    Except PublishError (List Char) :=
  match (findBlocks content).find?
      (fun b => containsSeq (sliceL content b.1 b.2) (namePatternL manifestPatch.name)) with
  | some b =>
    match parseM (sliceL content b.1 b.2) with
    | .error _ => .error .parseFailure
    | .ok m =>
      .ok (content.take b.1 ++
        (encodeM (Manifest.merge m manifestPatch)).dropWhile (fun c => c = ' ') ++
        content.drop b.2)
  | none =>
    match (findBlocks content).getLast? with
    | none => .error .insertionPointNotFound
    | some lastB =>
      .ok (content.take lastB.2 ++ ('\n' :: encodeM manifestPatch) ++
        content.drop lastB.2)

/-- The fuel argument of `findBlocksAux` is irrelevant once it exceeds the
input length: every found block consumes at least one character.  `findBlocks`
always passes `content.length + 1`, so the scan is the full `FindAllIndex`. -/
theorem findBlocksAux_fuel_indep : ∀ (fuel1 fuel2 : Nat) (l : List Char) (off : Nat),
    l.length < fuel1 → l.length < fuel2 →
    findBlocksAux fuel1 l off = findBlocksAux fuel2 l off := by
  intro fuel1
  induction fuel1 with
  | zero => intro fuel2 l off h1 h2; exact absurd h1 (Nat.not_lt_zero _)
  | succ f1 ih =>
    intro fuel2 l off h1 h2
    cases fuel2 with
    | zero => exact absurd h2 (Nat.not_lt_zero _)
    | succ f2 =>
      rw [findBlocksAux, findBlocksAux]
      cases ho : firstOccur l openTag with
      | none => rfl
      | some s =>
        dsimp only
        cases hc : firstOccur (l.drop (s + openTag.length)) closeTag with
        | none => rfl
        | some e =>
          dsimp only
          have hl : l ≠ [] := by
            intro hnil
            subst hnil
            rw [firstOccur] at ho
            simp [openTag] at ho
          have hl1 : 1 ≤ l.length := by
            cases l with
            | nil => exact absurd rfl hl
            | cons c cs => simp
          have hopen : openTag.length = 10 := by decide
          have hclose : closeTag.length = 11 := by decide
          congr 1
          apply ih
          · rw [List.length_drop]
            omega
          · rw [List.length_drop]
            omega

theorem findBlocksAux_le (fuel : Nat) : ∀ (l : List Char) (off : Nat),
    ∀ b ∈ findBlocksAux fuel l off, b.1 ≤ b.2 := by
  induction fuel with
  | zero => intro l off b hb; simp [findBlocksAux] at hb
  | succ fuel ih =>
    intro l off b hb
    rw [findBlocksAux] at hb
    split at hb
    · simp at hb
    · split at hb
      · simp at hb
      · rcases List.mem_cons.1 hb with rfl | hb2
        · simp
          omega
        · exact ih _ _ b hb2

theorem take_slice_drop (l : List Char) (s e : Nat) (h : s ≤ e) :
    l.take s ++ sliceL l s e ++ l.drop e = l := by
  unfold sliceL
  have h1 : l.take s = (l.take e).take s := by
    rw [List.take_take, Nat.min_eq_left h]
  rw [h1, List.take_append_drop, List.take_append_drop]

/-- C5: with no record span at all, `publish` fails with the
insertion-point error and produces no document; when the first span
containing the name pattern is found and parses, the output is exactly the
bytes before the span, the left-trimmed re-serialized merge, and the bytes
after the span — every byte outside the span unchanged; with spans but none
containing the name, the serialized new record is inserted immediately after
the last span, all original bytes kept in order. -/
theorem publish_frame (parseM : List Char → Except String Manifest)
    (encodeM : Manifest → List Char) (content : List Char) (patch : Manifest) :
    (findBlocks content = [] →
      publish parseM encodeM content patch = .error .insertionPointNotFound) ∧
    (∀ s e m,
      (findBlocks content).find?
        (fun b => containsSeq (sliceL content b.1 b.2) (namePatternL patch.name)) =
        some (s, e) →
      parseM (sliceL content s e) = .ok m →
      content = content.take s ++ sliceL content s e ++ content.drop e ∧
      publish parseM encodeM content patch =
        .ok (content.take s ++
          (encodeM (Manifest.merge m patch)).dropWhile (fun c => c = ' ') ++
          content.drop e)) ∧
    (∀ s e,
      (findBlocks content).find?
        (fun b => containsSeq (sliceL content b.1 b.2) (namePatternL patch.name)) =
        none →
      (findBlocks content).getLast? = some (s, e) →
      content = content.take e ++ content.drop e ∧
      publish parseM encodeM content patch =
        .ok (content.take e ++ ('\n' :: encodeM patch) ++ content.drop e)) := by
  refine ⟨fun hempty => ?_, fun s e m hfind hparse => ?_, fun s e hfind hlast => ?_⟩
  · unfold publish
    rw [hempty]
    simp
  · have hmem := List.mem_of_find?_eq_some hfind
    have hse : s ≤ e :=
      findBlocksAux_le (content.length + 1) content 0 (s, e) hmem
    refine ⟨(take_slice_drop content s e hse).symm, ?_⟩
    unfold publish
    rw [hfind]
    dsimp only
    rw [hparse]
  · refine ⟨(List.take_append_drop e content).symm, ?_⟩
    unfold publish
    rw [hfind]
    dsimp only
    rw [hlast]

/-- Witness for C5's replace path on a one-record document with concrete
parse and encode collaborators. -/
theorem publish_frame_witness :
    publish (fun _ => .ok (mkMod "A" [])) (fun _ => " X".data)
      "<Manifest><Name>A</Name></Manifest>".data (mkMod "A" []) = .ok ['X'] :=
  ((publish_frame (fun _ => .ok (mkMod "A" [])) (fun _ => " X".data)
      "<Manifest><Name>A</Name></Manifest>".data (mkMod "A" [])).2.1
    0 35 (mkMod "A" []) (by decide) rfl).2.trans (by decide)


/-! ## The install batch loop (`install`, main program lines 360-421)

The per-record effects — `getModFile` (cache + download),
`removePreviousVersion`, and zip/dll extraction — are collaborators supplied
through `InstallEnv`; what is translated here is the loop structure: each
requested name is resolved (a failure is printed and the loop continues),
the transitive closure is taken over the successfully resolved names — and
its missing-dependency error is returned, aborting the run before any record
is fetched — and otherwise every closure record is processed in turn, each
failure reported for that record only. -/

inductive InstallEvent where
  | resolveFailed (requestedName : String) (err : ResolveError)
  | nameHasSep (name : String)
  | fileHasSep (name : String)
  | fetchFailed (name : String)
  | removeFailed (name : String)
  | extractFailed (name : String)
  | installed (name : String)
deriving DecidableEq, Repr

/-- The external collaborators and platform constants used by the loop body. -/
structure InstallEnv (File : Type) where
  sep : Char
  baseOf : String → String
  getModFile : Manifest → Except String File
  removePreviousVersion : String → Except String Unit
  extract : File → Manifest → Except String Unit

/-- One iteration of the download loop (lines 389-419): the path-separator
guards, then fetch, remove previous version, extract — any failure is
reported for this record and the loop moves on. -/
def installStep {File : Type} (env : InstallEnv File) (dl : Manifest) : InstallEvent :=
  if dl.name.data.contains env.sep then .nameHasSep dl.name
  else if (env.baseOf dl.link.url).data.contains env.sep then .fileHasSep dl.name
  else match env.getModFile dl with
    | .error _ => .fetchFailed dl.name
    | .ok file =>
      match env.removePreviousVersion dl.name with
      | .error _ => .removeFailed dl.name
      | .ok _ =>
        match env.extract file dl with
        | .error _ => .extractFailed dl.name
        | .ok _ => .installed dl.name

/-- The observable outcome of one `install` run: the per-item reports, and
`some missing` when the run returned the aggregated missing-mods error. -/
structure InstallRun where
  events : List InstallEvent
  missingAbort : Option (List String)
deriving DecidableEq, Repr

/-- `install`: resolve each argument (continuing on failure), close over the
resolved names, return the missing-mods error if any — before fetching
anything — and otherwise run the download loop over every closure record. -/
def install {File : Type} (env : InstallEnv File) (manifests : List Manifest)
    (args : List String) : InstallRun :=
  if (TransitiveClosure manifests
      (args.filterMap (fun a => (resolveMod manifests a).toOption))).2 ≠ [] then
    { events := args.filterMap (fun a =>
        match resolveMod manifests a with
        | .ok _ => none
        | .error e => some (InstallEvent.resolveFailed a e)),
      missingAbort := some (TransitiveClosure manifests
        (args.filterMap (fun a => (resolveMod manifests a).toOption))).2 }
  else
    { events := args.filterMap (fun a =>
        match resolveMod manifests a with
        | .ok _ => none
        | .error e => some (InstallEvent.resolveFailed a e)) ++
        (TransitiveClosure manifests
          (args.filterMap (fun a => (resolveMod manifests a).toOption))).1.map
          (installStep env),
      missingAbort := none }

/-- An environment in which every collaborator succeeds. -/
def allOkEnv : InstallEnv Unit :=
  { sep := '/', baseOf := fun u => u, getModFile := fun _ => .ok (),
    removePreviousVersion := fun _ => .ok (), extract := fun _ _ => .ok () }

/-- C7 counterexample: on the catalog `[A dependsOn B]` (B absent) with the
request `["A"]`, `A` resolves successfully, yet `install` returns the
missing-mods error and performs no download at all — the batch is aborted,
the resolved record is not fetched or installed. -/
theorem install_aborts_on_missing_dependency :
    install allOkEnv [mkMod "A" ["B"]] ["A"] =
      { events := [], missingAbort := some ["B"] } := by
  have hres : (["A"] : List String).filterMap
      (fun a => (resolveMod [mkMod "A" ["B"]] a).toOption) = ["A"] := by decide
  have hrev : (["A"] : List String).filterMap
      (fun a => match resolveMod [mkMod "A" ["B"]] a with
        | .ok _ => none
        | .error e => some (InstallEvent.resolveFailed a e)) = [] := by decide
  have htc : TransitiveClosure [mkMod "A" ["B"]] ["A"] = ([mkMod "A" ["B"]], ["B"]) := by
    simp [TransitiveClosure, tcLoop, lookupMod, insertMissing, mkMod, List.find?]
  unfold install
  rw [hres, hrev, htc]
  simp

/-- C7 (amended): resolution failures and per-record install failures are
reported for that name only and the run continues — when the closure reports
nothing missing, the run is not aborted and the download loop emits exactly
one report per closure record, whatever the per-record outcomes — but a
missing dependency aborts the whole run before any record is fetched,
returning the aggregated missing set with only the resolution reports
emitted. -/
theorem install_partial_failure {File : Type} (env : InstallEnv File)
    (manifests : List Manifest) (args : List String) :
    ((TransitiveClosure manifests
        (args.filterMap (fun a => (resolveMod manifests a).toOption))).2 = [] →
      (install env manifests args).missingAbort = none ∧
      (install env manifests args).events =
        args.filterMap (fun a =>
          match resolveMod manifests a with
          | .ok _ => none
          | .error e => some (InstallEvent.resolveFailed a e)) ++
        (TransitiveClosure manifests
          (args.filterMap (fun a => (resolveMod manifests a).toOption))).1.map
          (installStep env) ∧
      ∀ dl ∈ (TransitiveClosure manifests
          (args.filterMap (fun a => (resolveMod manifests a).toOption))).1,
        installStep env dl ∈ (install env manifests args).events) ∧
    ((TransitiveClosure manifests
        (args.filterMap (fun a => (resolveMod manifests a).toOption))).2 ≠ [] →
      (install env manifests args).missingAbort =
        some (TransitiveClosure manifests
          (args.filterMap (fun a => (resolveMod manifests a).toOption))).2 ∧
      (install env manifests args).events =
        args.filterMap (fun a =>
          match resolveMod manifests a with
          | .ok _ => none
          | .error e => some (InstallEvent.resolveFailed a e))) := by
  constructor
  · intro hmiss
    unfold install
    rw [if_neg (by simp [hmiss])]
    refine ⟨rfl, rfl, fun dl hdl => ?_⟩
    exact List.mem_append_right _ (List.mem_map_of_mem (installStep env) hdl)
  · intro hmiss
    unfold install
    rw [if_pos hmiss]
    exact ⟨rfl, rfl⟩

/-- Witness for C7's amended claim: a two-record catalog, both requested;
fetching `A` fails while `B` succeeds, and the loop still reports both. -/
theorem install_partial_failure_witness :
    (install
      { sep := '/', baseOf := fun u => u,
        getModFile := fun dl => if dl.name = "A" then .error "boom" else .ok (),
        removePreviousVersion := fun _ => .ok (),
        extract := fun (_ : Unit) _ => .ok () }
      [mkMod "A" [], mkMod "B" []] ["A", "B"]).missingAbort = none := by
  have h := (install_partial_failure
      { sep := '/', baseOf := fun u => u,
        getModFile := fun dl => if dl.name = "A" then .error "boom" else .ok (),
        removePreviousVersion := fun _ => .ok (),
        extract := fun (_ : Unit) _ => .ok () }
      [mkMod "A" [], mkMod "B" []] ["A", "B"]).1
  have hargs : (["A", "B"] : List String).filterMap
      (fun a => (resolveMod [mkMod "A" [], mkMod "B" []] a).toOption) = ["A", "B"] := by
    decide
  have htc : TransitiveClosure [mkMod "A" [], mkMod "B" []] ["A", "B"] =
      ([mkMod "B" [], mkMod "A" []], []) := by
    simp [TransitiveClosure, tcLoop, lookupMod, insertMissing, mkMod, List.find?]
  exact (h (by rw [hargs, htc])).1

end Colophon
